import Mathlib

set_option maxHeartbeats 1000000
set_option maxRecDepth 10000

/-!
# Verification of the Devito IET specification

This development embeds the Intermediate Exchangeable Tree (IET) node model,
its read-only visitors (`FindSymbols`, `FindSections`, `IsPerfectIteration`),
the rewrite engine (`Transformer`, `NestedTransformer`) and the canonical
printer (`printAST`), together with the `Side`/`Transpose` tag objects of the
finite-difference module, and proves the specified properties about them.
-/

namespace IET

/-- A base symbol occurring in an equation: a base-symbol identity plus a flag
recording whether the symbol is array-typed. -/
structure Sym where
  name : String
  isArray : Bool
deriving DecidableEq

/-- Modelled from the spec: the IET node kinds (the node model itself is not
part of the provided sources; only its tests are).  `expr` wraps one Equation
(LHS text, RHS text, and the list of operand base symbols); `iter` is a loop
over one dimension with `(lo, hi, step)` bounds, opaque offset metadata `aux`
and an ordered body; `cond` is a guard with a then-body and a possibly empty
else-body (an empty list models an absent else-branch, as in the source where
the default else body is the empty tuple); `block` groups ordered
heterogeneous children with no loop semantics; `line` is a plain decoration
line of text, used by the tests to wrap statements in comments.  Per-instance
node identity is modelled by an explicit opaque handle (a `Nat`), following
the spec's design note that reference identity be replaced by explicit
handles. -/
inductive Node where
  | expr (id : Nat) (lhs rhs : String) (syms : List Sym)
  | iter (id : Nat) (dim : String) (lo hi step : Int) (aux : String) (body : List Node)
  | cond (id : Nat) (guard : String) (thenBody : List Node) (elseBody : List Node)
  | block (id : Nat) (body : List Node)
  | line (id : Nat) (text : String)

/-- The identity handle of a node, used as rewrite-mapping key. -/
def idOf : Node → Nat
  | .expr i _ _ _ => i
  | .iter i _ _ _ _ _ _ => i
  | .cond i _ _ _ => i
  | .block i _ => i
  | .line i _ => i

mutual

/-- All nodes of a subtree, in depth-first pre-order (the node itself first). -/
def subnodes : Node → List Node
  | .expr i l r s => [.expr i l r s]
  | .iter i d lo hi st aux b => .iter i d lo hi st aux b :: subnodesList b
  | .cond i g tb eb => .cond i g tb eb :: (subnodesList tb ++ subnodesList eb)
  | .block i b => .block i b :: subnodesList b
  | .line i s => [.line i s]

/-- All nodes of a forest, in depth-first pre-order. -/
def subnodesList : List Node → List Node
  | [] => []
  | n :: rest => subnodes n ++ subnodesList rest

end

mutual

/-- Number of nodes of a subtree carrying the identity `k`. -/
def countId (k : Nat) : Node → Nat
  | .expr i _ _ _ => if i = k then 1 else 0
  | .iter i _ _ _ _ _ b => (if i = k then 1 else 0) + countIdList k b
  | .cond i _ tb eb => (if i = k then 1 else 0) + (countIdList k tb + countIdList k eb)
  | .block i b => (if i = k then 1 else 0) + countIdList k b
  | .line i _ => if i = k then 1 else 0

/-- Number of nodes of a forest carrying the identity `k`. -/
def countIdList (k : Nat) : List Node → Nat
  | [] => 0
  | n :: rest => countId k n + countIdList k rest

end

/-- One indentation unit, applied once per nesting level. -/
def indentUnit : String := "  "

/-- Shift a list of rendered lines one nesting level deeper. -/
def indent1 (ls : List (Nat × String)) : List (Nat × String) :=
  ls.map (fun p => (p.1 + 1, p.2))

/-- The header text of an Iteration node in the canonical projection. -/
def iterHeader (d : String) (lo hi step : Int) (aux : String) : String :=
  "<Iteration " ++ d ++ "::" ++ d ++ "::(" ++ toString lo ++ ", " ++ toString hi ++
    ", " ++ toString step ++ ")::(" ++ aux ++ ")>"

/-- The text of an Expression node in the canonical projection. -/
def exprLine (lhs rhs : String) : String :=
  "<Expression " ++ lhs ++ " = " ++ rhs ++ ">"

mutual

/-- Modelled from the spec: the canonical printer's line sequence (the printer
itself is not part of the provided sources).  Each line is a pair of its
nesting depth and its text; per kind: Expression one line, Iteration a header
line followed by the body one level deeper, Conditional an `<If ...>` line
followed by the indented then-body and, when an else-branch is present, an
`<Else>` marker plus the indented else-body, Block the concatenation of its
children with no wrapper line, and a decoration line renders as its text. -/
def renderLines : Node → List (Nat × String)
  | .expr _ lhs rhs _ => [(0, exprLine lhs rhs)]
  | .iter _ d lo hi st aux b => (0, iterHeader d lo hi st aux) :: indent1 (renderLinesList b)
  | .cond _ g tb eb =>
      (0, "<If " ++ g ++ ">") ::
        (indent1 (renderLinesList tb) ++
          (if eb.isEmpty then [] else (0, "<Else>") :: indent1 (renderLinesList eb)))
  | .block _ b => renderLinesList b
  | .line _ s => [(0, s)]

/-- Rendered lines of a forest: concatenation in order. -/
def renderLinesList : List Node → List (Nat × String)
  | [] => []
  | n :: rest => renderLines n ++ renderLinesList rest

end

/-- Indentation string for a given nesting depth. -/
def indentOf : Nat → String
  | 0 => ""
  | n + 1 => indentUnit ++ indentOf n

/-- Modelled from the spec: `printAST`, the canonical text projection — each
rendered line prefixed by one indentation unit per nesting level, lines joined
by newlines. -/
def printAST (t : Node) : String :=
  String.intercalate "\n" ((renderLines t).map (fun p => indentOf p.1 ++ p.2))

mutual

/-- The texts of the rendered lines of a node, without indentation. -/
def lineTexts : Node → List String
  | .expr _ lhs rhs _ => [exprLine lhs rhs]
  | .iter _ d lo hi st aux b => iterHeader d lo hi st aux :: lineTextsList b
  | .cond _ g tb eb =>
      ("<If " ++ g ++ ">") ::
        (lineTextsList tb ++ (if eb.isEmpty then [] else "<Else>" :: lineTextsList eb))
  | .block _ b => lineTextsList b
  | .line _ s => [s]

/-- The texts of the rendered lines of a forest. -/
def lineTextsList : List Node → List String
  | [] => []
  | n :: rest => lineTexts n ++ lineTextsList rest

end

/-- The number of rendered lines of a node. -/
def lineCount (t : Node) : Nat := (lineTexts t).length

mutual

/-- Reference rendering, following the spec's words directly: the fixed
per-kind projection with an explicit indentation prefix that grows by one
fixed unit per nesting level (used to check `printAST` against the spec). -/
def specProject (pre : String) : Node → List String
  | .expr _ lhs rhs _ => [pre ++ exprLine lhs rhs]
  | .iter _ d lo hi st aux b =>
      (pre ++ iterHeader d lo hi st aux) :: specProjectList (pre ++ indentUnit) b
  | .cond _ g tb eb =>
      (pre ++ "<If " ++ g ++ ">") ::
        (specProjectList (pre ++ indentUnit) tb ++
          (if eb.isEmpty then []
           else (pre ++ "<Else>") :: specProjectList (pre ++ indentUnit) eb))
  | .block _ b => specProjectList pre b
  | .line _ s => [pre ++ s]

/-- Reference rendering of a forest. -/
def specProjectList (pre : String) : List Node → List String
  | [] => []
  | n :: rest => specProject pre n ++ specProjectList pre rest

end

/-- Reference canonical projection assembled from `specProject`. -/
def specRender (t : Node) : String :=
  String.intercalate "\n" (specProject "" t)

/-- Look up a key in a rewrite mapping.  `some none` is the explicit deletion
marker, `some (some r)` a replacement, `none` an unmapped node. -/
def lookupRep (m : List (Nat × Option Node)) (k : Nat) : Option (Option Node) :=
  match m with
  | [] => none
  | (k', v) :: rest => if k' = k then some v else lookupRep rest k

mutual

/-- Modelled from the spec: the single-pass `Transformer` (the rewrite engine
is not part of the provided sources).  A mapped node is replaced by its
replacement spliced in as-is (or deleted), and is not itself subject to
further substitution within the same pass; an unmapped node is rebuilt with
its transformed children. -/
def transform (m : List (Nat × Option Node)) : Node → Option Node
  | .expr i l r s =>
      match lookupRep m i with
      | some v => v
      | none => some (.expr i l r s)
  | .iter i d lo hi st aux b =>
      match lookupRep m i with
      | some v => v
      | none => some (.iter i d lo hi st aux (transformList m b))
  | .cond i g tb eb =>
      match lookupRep m i with
      | some v => v
      | none => some (.cond i g (transformList m tb) (transformList m eb))
  | .block i b =>
      match lookupRep m i with
      | some v => v
      | none => some (.block i (transformList m b))
  | .line i s =>
      match lookupRep m i with
      | some v => v
      | none => some (.line i s)

/-- Transform a forest: deleted children vanish from the child sequence. -/
def transformList (m : List (Nat × Option Node)) : List Node → List Node
  | [] => []
  | n :: rest =>
      match transform m n with
      | none => transformList m rest
      | some n' => n' :: transformList m rest

end

/-- `Transformer` entry point, matching the visitor interface of the source. -/
def Transformer (m : List (Nat × Option Node)) (t : Node) : Option Node :=
  transform m t

/-- Rebuild a replacement node with the given substituted children, keeping
its non-child attributes (children-less kinds are returned unchanged). -/
def rebuildWith : Node → List Node → Node
  | .expr i l r s, _ => .expr i l r s
  | .iter i d lo hi st aux _, cs => .iter i d lo hi st aux cs
  | .cond i g _ eb, cs => .cond i g cs eb
  | .block i _, cs => .block i cs
  | .line i s, _ => .line i s

mutual

/-- Modelled from the spec: the depth-first `NestedTransformer` (not part of
the provided sources).  Children are resolved first; a mapped node's
replacement is then rebuilt with the node's resolved children, so an inner
substitution is incorporated into the rebuild of an enclosing replacement.
A mapped children-less node's replacement is spliced as-is. -/
def ntransform (m : List (Nat × Option Node)) : Node → Option Node
  | .expr i l r s =>
      match lookupRep m i with
      | some v => v
      | none => some (.expr i l r s)
  | .iter i d lo hi st aux b =>
      let b' := ntransformList m b
      match lookupRep m i with
      | some none => none
      | some (some h) => some (rebuildWith h b')
      | none => some (.iter i d lo hi st aux b')
  | .cond i g tb eb =>
      let tb' := ntransformList m tb
      let eb' := ntransformList m eb
      match lookupRep m i with
      | some none => none
      | some (some h) => some (rebuildWith h tb')
      | none => some (.cond i g tb' eb')
  | .block i b =>
      let b' := ntransformList m b
      match lookupRep m i with
      | some none => none
      | some (some h) => some (rebuildWith h b')
      | none => some (.block i b')
  | .line i s =>
      match lookupRep m i with
      | some v => v
      | none => some (.line i s)

/-- Depth-first transform of a forest. -/
def ntransformList (m : List (Nat × Option Node)) : List Node → List Node
  | [] => []
  | n :: rest =>
      match ntransform m n with
      | none => ntransformList m rest
      | some n' => n' :: ntransformList m rest

end

/-- `NestedTransformer` entry point, matching the visitor interface. -/
def NestedTransformer (m : List (Nat × Option Node)) (t : Node) : Option Node :=
  ntransform m t

mutual

/-- The number of Expression nodes of a subtree. -/
def countExprs : Node → Nat
  | .expr _ _ _ _ => 1
  | .iter _ _ _ _ _ _ b => countExprsList b
  | .cond _ _ tb eb => countExprsList tb + countExprsList eb
  | .block _ b => countExprsList b
  | .line _ _ => 0

/-- The number of Expression nodes of a forest. -/
def countExprsList : List Node → Nat
  | [] => 0
  | n :: rest => countExprs n + countExprsList rest

end

/-- Append an Expression node to the section of key `k` in a
first-encountered-order association list, opening a new section at the end
when the key is new. -/
def addEntry (k : List String) (e : Node) :
    List (List String × List Node) → List (List String × List Node)
  | [] => [(k, [e])]
  | (k', es) :: rest =>
      if k' = k then (k', es ++ [e]) :: rest else (k', es) :: addEntry k e rest

mutual

/-- Modelled from the spec: the `FindSections` traversal (not part of the
provided sources).  The key is the ordered tuple of enclosing Iteration
dimensions; crossing a Conditional extends the key with a guard marker so its
interior is its own nested context, never merged into a sibling run;
Expressions are appended to the section of the current key. -/
def findSectionsNode (key : List String) (acc : List (List String × List Node)) :
    Node → List (List String × List Node)
  | .expr i l r s => addEntry key (.expr i l r s) acc
  | .iter _ d _ _ _ _ b => findSectionsList (key ++ [d]) acc b
  | .cond _ g tb eb =>
      findSectionsList (key ++ ["<Else " ++ g ++ ">"])
        (findSectionsList (key ++ ["<If " ++ g ++ ">"]) acc tb) eb
  | .block _ b => findSectionsList key acc b
  | .line _ _ => acc

/-- `FindSections` over a forest, left to right. -/
def findSectionsList (key : List String) (acc : List (List String × List Node)) :
    List Node → List (List String × List Node)
  | [] => acc
  | n :: rest => findSectionsList key (findSectionsNode key acc n) rest

end

/-- `FindSections` entry point: a first-encountered-order mapping from
dimension-tuple key to the ordered Expression nodes collected under it. -/
def FindSections (t : Node) : List (List String × List Node) :=
  findSectionsNode [] [] t

mutual

/-- All base-symbol occurrences of the Equations under a subtree, in
traversal order, with duplicates. -/
def symbolsOf : Node → List Sym
  | .expr _ _ _ s => s
  | .iter _ _ _ _ _ _ b => symbolsOfList b
  | .cond _ _ tb eb => symbolsOfList tb ++ symbolsOfList eb
  | .block _ b => symbolsOfList b
  | .line _ _ => []

/-- Base-symbol occurrences of a forest. -/
def symbolsOfList : List Node → List Sym
  | [] => []
  | n :: rest => symbolsOf n ++ symbolsOfList rest

end

/-- Keep the first occurrence of each base-symbol identity not already seen,
dropping later duplicates. -/
def dedupFirst (seen : List String) : List Sym → List Sym
  | [] => []
  | s :: rest =>
      if seen.contains s.name then dedupFirst seen rest
      else s :: dedupFirst (s.name :: seen) rest

/-- Modelled from the spec: `FindSymbols` (not part of the provided sources)
— the first-seen-order, duplicate-free sequence of distinct base-symbol
identities referenced under a subtree. -/
def FindSymbols (t : Node) : List Sym :=
  dedupFirst [] (symbolsOf t)

/-- Reference first-seen-order deduplication on plain identity lists,
following the claim's words. -/
def firstOccurrences (seen : List String) : List String → List String
  | [] => []
  | x :: xs =>
      if seen.contains x then firstOccurrences seen xs
      else x :: firstOccurrences (x :: seen) xs

/-- The implicit trailing size parameters: one per array-typed symbol. -/
def sizeParams (syms : List Sym) : List String :=
  (syms.filter (fun s => s.isArray)).map (fun s => s.name ++ "_size")

/-- Modelled from the spec: a Callable binds name, body, return-type tag and
parameter list. -/
structure Callable where
  name : String
  body : Node
  retval : String
  parameters : List String

/-- Modelled from the spec: Callable construction — an omitted parameter list
is computed via `FindSymbols` over the body, in first-occurrence order, with
one implicit trailing size parameter per array-typed symbol. -/
def Callable.make (n : String) (body : Node) (rt : String)
    (ps : Option (List String)) : Callable :=
  ⟨n, body, rt,
    ps.getD ((FindSymbols body).map Sym.name ++ sizeParams (FindSymbols body))⟩

mutual

/-- Modelled from the spec: the `IsPerfectIteration` visitor (not part of the
provided sources; its found/multi bookkeeping is fixed by the repository's
test assertions).  `found` records being inside an Iteration, `multi` whether
the enclosing Iteration's body had more than one child: an Iteration reached
inside a loop whose body had several children is non-perfect; a Conditional
is never perfect; any other node is. -/
def isPerfect (found multi : Bool) : Node → Bool
  | .iter _ _ _ _ _ _ b =>
      if found && multi then false
      else isPerfectList true (decide (1 < b.length)) b
  | .cond _ _ _ _ => false
  | .expr _ _ _ _ => true
  | .block _ _ => true
  | .line _ _ => true

/-- The visitor over a child sequence: all children must be perfect. -/
def isPerfectList (found multi : Bool) : List Node → Bool
  | [] => true
  | n :: rest => isPerfect found multi n && isPerfectList found multi rest

end

/-- `IsPerfectIteration` entry point. -/
def IsPerfectIteration (t : Node) : Bool :=
  isPerfect false false t

mutual

/-- Declarative in-loop perfection: what `isPerfect` computes once inside an
Iteration whose body had more than one child iff `multi`. -/
def inLoop (multi : Bool) : Node → Bool
  | .iter _ _ _ _ _ _ b => !multi && inLoopList (decide (1 < b.length)) b
  | .cond _ _ _ _ => false
  | .expr _ _ _ _ => true
  | .block _ _ => true
  | .line _ _ => true

/-- Declarative in-loop perfection of a child sequence. -/
def inLoopList (multi : Bool) : List Node → Bool
  | [] => true
  | n :: rest => inLoop multi n && inLoopList multi rest

end

/-- Amended reference predicate for perfect nests, without accumulator
bookkeeping: a Conditional is never perfect; an Iteration is perfect iff all
its body children are in-loop perfect under the flag recording whether the
body has more than one child; other nodes are vacuously perfect. -/
def perfectRef : Node → Bool
  | .iter _ _ _ _ _ _ b => inLoopList (decide (1 < b.length)) b
  | .cond _ _ _ _ => false
  | .expr _ _ _ _ => true
  | .block _ _ => true
  | .line _ _ => true

/-- The claim's stated reference predicate: an Iteration is perfect iff its
body has exactly one child and that child is an Expression or a perfect
Iteration; a Conditional is perfect iff it has no else-branch and its single
then-body child satisfies the same single-child rule; multiple children make
it false; other nodes are vacuously perfect. -/
def claimPerfect : Node → Bool
  | .iter _ _ _ _ _ _ [c] =>
      (match c with
       | .expr _ _ _ _ => true
       | .iter i d lo hi st aux b => claimPerfect (.iter i d lo hi st aux b)
       | _ => false)
  | .iter _ _ _ _ _ _ _ => false
  | .cond _ _ [c] [] =>
      (match c with
       | .expr _ _ _ _ => true
       | .iter i d lo hi st aux b => claimPerfect (.iter i d lo hi st aux b)
       | _ => false)
  | .cond _ _ _ _ => false
  | .expr _ _ _ _ => true
  | .block _ _ => true
  | .line _ _ => true

/-! ## Test fixtures

The concrete trees of `test_visitors.py`, with explicit identity handles. -/

/-- `exprs[0]`: `a[i] = a[i] + b[i] + 5.0`. -/
def expr0 : Node := .expr 0 "a[i]" "a[i] + b[i] + 5.0" [⟨"a", true⟩, ⟨"b", true⟩]

/-- `exprs[1]`: `a[i] = -a[i] + b[i]`. -/
def expr1 : Node := .expr 1 "a[i]" "-a[i] + b[i]" [⟨"a", true⟩, ⟨"b", true⟩]

/-- `exprs[2]`: `a[i] = 4*a[i]*b[i]`. -/
def expr2 : Node := .expr 2 "a[i]" "4*a[i]*b[i]" [⟨"a", true⟩, ⟨"b", true⟩]

/-- `exprs[3]`: `a[i] = 8.0*a[i] + 6.0/b[i]`. -/
def expr3 : Node := .expr 3 "a[i]" "8.0*a[i] + 6.0/b[i]" [⟨"a", true⟩, ⟨"b", true⟩]

/-- The `i` loop of the fixtures: bounds `(0, 3, 1)`, offsets `(0, 0)`. -/
def iterI (b : List Node) : Node := .iter 10 "i" 0 3 1 "0, 0" b

/-- The `j` loop: bounds `(0, 5, 1)`. -/
def iterJ (b : List Node) : Node := .iter 11 "j" 0 5 1 "0, 0" b

/-- The `k` loop: bounds `(0, 7, 1)`. -/
def iterK (b : List Node) : Node := .iter 12 "k" 0 7 1 "0, 0" b

/-- The `s` loop: bounds `(0, 4, 1)`. -/
def iterS (b : List Node) : Node := .iter 13 "s" 0 4 1 "0, 0" b

/-- The `q` loop: bounds `(0, 4, 1)`. -/
def iterQ (b : List Node) : Node := .iter 14 "q" 0 4 1 "0, 0" b

/-- `block1`: a perfect loop nest. -/
def block1 : Node := iterI [iterJ [iterK [expr0]]]

/-- `block2`: a non-perfect simple loop nest. -/
def block2 : Node := iterI [expr0, iterJ [iterK [expr1]]]

/-- `block3`: a non-perfect non-trivial loop nest with three sibling groups. -/
def block3 : Node := iterI [iterS [expr0], iterJ [iterK [expr1, expr2]], iterQ [expr3]]

/-- `block4`: a loop made non-perfect by a conditional. -/
def block4 : Node := iterI [.cond 20 "Eq(Mod(i, 2), 0)" [iterJ [expr0]] []]

/-- Total number of Expression nodes stored across all section values. -/
def secLen (acc : List (List String × List Node)) : Nat :=
  (acc.map (fun p => p.2.length)).sum

/-- The multiset of rendered line texts of a node. -/
def lineM (t : Node) : Multiset String := (lineTexts t : Multiset String)

/-- The multiset of rendered line texts of a forest. -/
def lineMList (l : List Node) : Multiset String := (lineTextsList l : Multiset String)

/-- The else-branch contribution to a Conditional's rendered lines. -/
def elseTexts (eb : List Node) : List String :=
  if eb.isEmpty then [] else "<Else>" :: lineTextsList eb

/-- The outer key's replacement: an `s` loop wrapping the subtree that holds
the inner key `expr1`. -/
def c1Replacement : Node := iterS [iterK [expr1]]

/-- The two-key mapping: the outer `j` loop maps to `c1Replacement`, the
inner `expr1` maps to `expr3`. -/
def c1Mapper : List (Nat × Option Node) := [(11, some c1Replacement), (1, some expr3)]

/-- Two sequential single-key `Transformer` passes, outer key first. -/
def c1SeqOuterFirst : Option Node :=
  (Transformer [(11, some c1Replacement)] block2).bind (Transformer [(1, some expr3)])

/-- Two sequential single-key `Transformer` passes, inner key first. -/
def c1SeqInnerFirst : Option Node :=
  (Transformer [(1, some expr3)] block2).bind (Transformer [(11, some c1Replacement)])

/-- A tree holding two structurally identical Expressions under distinct
identities — legal by the spec's identity model. -/
def dupTree : Node := .block 90 [.expr 91 "x" "y" [], .expr 92 "x" "y" []]

end IET
namespace FD

/-- `Transpose` from `finite_differences/finite_difference.py`: whether the
derivative is itself or its adjoint, as a stored numeric tag. -/
structure Transpose where
  transposeVal : Int
deriving DecidableEq

/-- `direct = Transpose(1)`. -/
def direct : Transpose := ⟨1⟩

/-- `transpose = Transpose(-1)`. -/
def transpose : Transpose := ⟨-1⟩

/-- `Transpose.__eq__`: equality holds iff the stored tags agree. -/
def transposeEqb (a b : Transpose) : Bool :=
  a.transposeVal == b.transposeVal

/-- `Side`: the side of the shift for derivatives, as a stored numeric tag. -/
structure Side where
  sideVal : Int
deriving DecidableEq

/-- `left = Side(-1)`. -/
def left : Side := ⟨-1⟩

/-- `right = Side(1)`. -/
def right : Side := ⟨1⟩

/-- `centered = Side(0)`. -/
def centered : Side := ⟨0⟩

/-- `Side.__eq__`: equality holds iff the stored tags agree. -/
def sideEqb (a b : Side) : Bool :=
  a.sideVal == b.sideVal

/-- `Side.adjoint`: with a direct matvec the side itself is returned; with
any other matvec, centered maps to centered, right to left and left to right;
for any other side value the source logs "Unsupported side value" and falls
through returning no side, modelled as `none`. -/
def Side.adjoint (s : Side) (matvec : Transpose) : Option Side :=
  if transposeEqb matvec direct then some s
  else
    if sideEqb s centered then some centered
    else if sideEqb s right then some left
    else if sideEqb s left then some right
    else none

/-- Python's `range(a, b)` over the integers. -/
def pyRange (a b : Int) : List Int :=
  (List.range (b - a).toNat).map (fun k => a + (k : Int))

/-- The stencil position offsets chosen by `first_derivative`'s side
dispatch: the multiples of `diff` added to `dim` in the branch selected by
comparing the (already adjointed) side against `right` and `left`. -/
def firstDerivOffsets (order : Nat) (side : Side) : List Int :=
  let o2 : Int := (order / 2 : Nat)
  let om : Int := (order % 2 : Nat)
  let o12 : Int := ((order + 1) / 2 : Nat)
  if sideEqb side right then pyRange (-o2 + 1 - om) (o12 + 2 - om)
  else if sideEqb side left then (pyRange (-o2 + 1 - om) (o12 + 2 - om)).map (fun i => -i)
  else pyRange (-o2) (o12 + 1)

/-- The staggering offset chosen by `staggered_diff`'s side dispatch:
`-1/2` for left, `1/2` for right, `0` otherwise. -/
def staggerOff (stagger : Side) : ℚ :=
  if sideEqb stagger left then -(1 / 2 : ℚ)
  else if sideEqb stagger right then (1 / 2 : ℚ)
  else 0

end FD

namespace IET

/-! ## The canonical printer agrees with the spec's projection -/

mutual

/-- The reference projection with prefix `pre` is the line sequence with
each line's depth expanded into `pre` plus one indentation unit per level. -/
theorem specProject_render (pre : String) :
    (t : Node) → specProject pre t = (renderLines t).map (fun p => pre ++ (indentOf p.1 ++ p.2))
  | .expr _ lhs rhs _ => by
      simp [specProject, renderLines, indentOf, String.empty_append]
  | .iter _ d lo hi st aux b => by
      have ih : specProjectList (pre ++ indentUnit) b =
          (renderLinesList b).map (fun p => pre ++ (indentOf (p.1 + 1) ++ p.2)) := by
        rw [specProjectList_render (pre ++ indentUnit) b]
        refine List.map_congr_left (fun p _ => ?_)
        simp [indentOf, String.append_assoc]
      simp [specProject, renderLines, indent1, List.map_map, indentOf, ih,
        String.empty_append, String.append_assoc, Function.comp_def]
  | .cond _ g tb eb => by
      have h1 : specProjectList (pre ++ indentUnit) tb =
          (renderLinesList tb).map (fun p => pre ++ (indentOf (p.1 + 1) ++ p.2)) := by
        rw [specProjectList_render (pre ++ indentUnit) tb]
        refine List.map_congr_left (fun p _ => ?_)
        simp [indentOf, String.append_assoc]
      have h2 : specProjectList (pre ++ indentUnit) eb =
          (renderLinesList eb).map (fun p => pre ++ (indentOf (p.1 + 1) ++ p.2)) := by
        rw [specProjectList_render (pre ++ indentUnit) eb]
        refine List.map_congr_left (fun p _ => ?_)
        simp [indentOf, String.append_assoc]
      cases heb : eb.isEmpty <;>
        simp [specProject, renderLines, heb, h1, h2, indent1, List.map_map, indentOf,
          String.empty_append, String.append_assoc, Function.comp_def]
  | .block _ b => by
      simpa [specProject, renderLines] using specProjectList_render pre b
  | .line _ s => by
      simp [specProject, renderLines, indentOf, String.empty_append]

/-- Forest version of `specProject_render`. -/
theorem specProjectList_render (pre : String) :
    (l : List Node) →
      specProjectList pre l = (renderLinesList l).map (fun p => pre ++ (indentOf p.1 ++ p.2))
  | [] => by simp [specProjectList, renderLinesList]
  | n :: rest => by
      simp [specProjectList, renderLinesList, specProject_render pre n,
        specProjectList_render pre rest]

end

/-- C4: for every tree, the canonical printer renders each node kind by the
fixed per-kind projection — Expression as `<Expression LHS = RHS>`, Iteration
as `<Iteration D::D::(start, end, step)::(aux)>`, Conditional as `<If guard>`
followed by an indented then-body, Block as the concatenation of its
children's renderings with no wrapper line — with indentation increased by
one fixed unit per nesting level: `printAST` coincides with the reference
projection `specRender` built directly from the spec's per-kind rules. -/
theorem printAST_matches_spec_projection : ∀ t : Node, printAST t = specRender t := by
  intro t
  unfold printAST specRender
  rw [specProject_render "" t]
  simp [String.empty_append]

/-! ## FindSections: the section total-count law -/

/-- Appending one Expression to an association list grows the total stored
count by exactly one. -/
theorem addEntry_secLen (k : List String) (e : Node) :
    ∀ acc, secLen (addEntry k e acc) = secLen acc + 1
  | [] => by simp [addEntry, secLen]
  | (k', es) :: rest => by
      simp only [addEntry]
      by_cases h : k' = k
      · simp [h, secLen]
        omega
      · have ih := addEntry_secLen k e rest
        simp only [if_neg h, secLen, List.map_cons, List.sum_cons] at ih ⊢
        omega

mutual

/-- Visiting a node adds exactly its Expression count to the accumulator's
total stored count. -/
theorem findSectionsNode_secLen (key : List String) (acc : List (List String × List Node)) :
    (t : Node) → secLen (findSectionsNode key acc t) = secLen acc + countExprs t
  | .expr i l r s => by
      simp [findSectionsNode, countExprs, addEntry_secLen]
  | .iter i d lo hi st aux b => by
      simp [findSectionsNode, countExprs, findSectionsList_secLen _ acc b]
  | .cond i g tb eb => by
      simp [findSectionsNode, countExprs,
        findSectionsList_secLen (key ++ ["<If " ++ g ++ ">"]) acc tb,
        findSectionsList_secLen (key ++ ["<Else " ++ g ++ ">"]) _ eb]
      omega
  | .block i b => by
      simp [findSectionsNode, countExprs, findSectionsList_secLen key acc b]
  | .line i s => by
      simp [findSectionsNode, countExprs]

/-- Forest version of `findSectionsNode_secLen`. -/
theorem findSectionsList_secLen (key : List String) (acc : List (List String × List Node)) :
    (l : List Node) → secLen (findSectionsList key acc l) = secLen acc + countExprsList l
  | [] => by simp [findSectionsList, countExprsList]
  | n :: rest => by
      simp [findSectionsList, countExprsList,
        findSectionsList_secLen key (findSectionsNode key acc n) rest,
        findSectionsNode_secLen key acc n]
      omega

end

/-- C2: for every tree `T`, the sum of the Expression counts across all
values of the mapping returned by `FindSections T` equals the total number of
Expression nodes in `T` (mutation-freedom holds by construction: the
traversal is a pure function of the tree). -/
theorem findSections_total_count :
    ∀ t : Node, ((FindSections t).map (fun p => p.2.length)).sum = countExprs t := by
  intro t
  have h := findSectionsNode_secLen [] [] t
  simpa [FindSections, secLen] using h

/-! ## IsPerfectIteration: accumulator elimination and the claim's rule -/

mutual

/-- Once inside an Iteration, the visitor computes the declarative in-loop
perfection. -/
theorem isPerfect_eq_inLoop (multi : Bool) :
    (t : Node) → isPerfect true multi t = inLoop multi t
  | .expr _ _ _ _ => by simp [isPerfect, inLoop]
  | .iter _ _ _ _ _ _ b => by
      cases multi with
      | true => simp [isPerfect, inLoop]
      | false =>
          simp [isPerfect, inLoop,
            isPerfectList_eq_inLoopList (decide (1 < b.length)) b]
  | .cond _ _ _ _ => by simp [isPerfect, inLoop]
  | .block _ _ => by simp [isPerfect, inLoop]
  | .line _ _ => by simp [isPerfect, inLoop]

/-- Forest version of `isPerfect_eq_inLoop`. -/
theorem isPerfectList_eq_inLoopList (multi : Bool) :
    (l : List Node) → isPerfectList true multi l = inLoopList multi l
  | [] => by simp [isPerfectList, inLoopList]
  | n :: rest => by
      simp [isPerfectList, inLoopList, isPerfect_eq_inLoop multi n,
        isPerfectList_eq_inLoopList multi rest]

end

/-- C3 (amended): `IsPerfectIteration` equals the reference predicate
`perfectRef`: a Conditional is never perfect; an Iteration is perfect iff
every body child is in-loop perfect under a flag recording whether the body
has more than one child, where in-loop an Iteration under a multi-child body
is non-perfect and Expressions and decorations are always acceptable; any
other node is vacuously perfect; the predicate is a total boolean
function. -/
theorem isPerfectIteration_eq_ref : ∀ t : Node, IsPerfectIteration t = perfectRef t := by
  intro t
  cases t <;>
    simp [IsPerfectIteration, isPerfect, perfectRef, isPerfectList_eq_inLoopList]

/-- C3 counterexample: on the fixture `block3.nodes[1]` — a `j` loop whose
`k` loop body holds two sibling Expressions — the visitor returns `true`
(as the repository test at `test_visitors.py:199` requires), while the
claim's single-child rule returns `false`; so `IsPerfectIteration` does not
equal the claim's stated reference predicate. -/
theorem isPerfectIteration_claim_counterexample :
    IsPerfectIteration (iterJ [iterK [expr1, expr2]]) = true ∧
      claimPerfect (iterJ [iterK [expr1, expr2]]) = false :=
  ⟨rfl, rfl⟩

/-- The modelled visitor reproduces every assertion of
`test_is_perfect_iteration` on the four fixtures. -/
theorem isPerfect_matches_repo_tests :
    IsPerfectIteration block1 = true ∧
      IsPerfectIteration (iterJ [iterK [expr0]]) = true ∧
      IsPerfectIteration (iterK [expr0]) = true ∧
      IsPerfectIteration block2 = false ∧
      IsPerfectIteration (iterJ [iterK [expr1]]) = true ∧
      IsPerfectIteration (iterK [expr1]) = true ∧
      IsPerfectIteration block3 = false ∧
      IsPerfectIteration (iterS [expr0]) = true ∧
      IsPerfectIteration (iterJ [iterK [expr1, expr2]]) = true ∧
      IsPerfectIteration (iterQ [expr3]) = true ∧
      IsPerfectIteration block4 = false ∧
      IsPerfectIteration (Node.cond 20 "Eq(Mod(i, 2), 0)" [iterJ [expr0]] []) = false ∧
      isPerfectList false false [iterJ [expr0]] = true := by
  decide

/-! ## The concrete block3 scenario -/

/-- C5: on the fixture `block3` — one outer loop over `i` with the three
sibling groups `(s: expr0)`, `(j: (k: expr1, expr2))`, `(q: expr3)` —
`FindSections` returns exactly 3 sections with Expression counts `[1, 2, 1]`
in encounter order, and the printer output matches the canonical projection's
fixed indentation and bracketing exactly. -/
theorem block3_sections_and_print :
    (FindSections block3).length = 3 ∧
      (FindSections block3).map (fun p => p.2.length) = [1, 2, 1] ∧
      printAST block3 =
        "<Iteration i::i::(0, 3, 1)::(0, 0)>\n  <Iteration s::s::(0, 4, 1)::(0, 0)>\n    <Expression a[i] = a[i] + b[i] + 5.0>\n  <Iteration j::j::(0, 5, 1)::(0, 0)>\n    <Iteration k::k::(0, 7, 1)::(0, 0)>\n      <Expression a[i] = -a[i] + b[i]>\n      <Expression a[i] = 4*a[i]*b[i]>\n  <Iteration q::q::(0, 4, 1)::(0, 0)>\n    <Expression a[i] = 8.0*a[i] + 6.0/b[i]>" :=
  ⟨rfl, rfl, rfl⟩

/-! ## The nested-transformer scenario of `test_nested_transformer` -/

/-- C1 counterexample: on the repository's own nested-transformer scenario,
the one-pass `NestedTransformer` result is equal to the sequential
composition that applies the outer key first and then the inner key — the
spliced replacement still carries the inner node, and the second pass
resolves it — refuting the claim that the nested result differs from the
two sequential single-key `Transformer` passes in either order. -/
theorem nestedTransformer_counterexample :
    NestedTransformer c1Mapper block2 = c1SeqOuterFirst := rfl

/-- C1 (amended): in one `NestedTransformer` pass both substitutions take
effect — the inner node's resolved form is incorporated into the rebuild of
the outer key's replacement, giving exactly the tree the repository test
expects — and the result differs from applying the two single-key
`Transformer` passes inner key first (that order loses the substitution
carried by the outer replacement), while it coincides with applying them
outer key first. -/
theorem nestedTransformer_simultaneity :
    (NestedTransformer c1Mapper block2).map printAST =
        some ("<Iteration i::i::(0, 3, 1)::(0, 0)>\n  <Expression a[i] = a[i] + b[i] + 5.0>\n  <Iteration s::s::(0, 4, 1)::(0, 0)>\n    <Iteration k::k::(0, 7, 1)::(0, 0)>\n      <Expression a[i] = 8.0*a[i] + 6.0/b[i]>") ∧
      (NestedTransformer c1Mapper block2).map printAST ≠ c1SeqInnerFirst.map printAST ∧
      NestedTransformer c1Mapper block2 = c1SeqOuterFirst := by
  refine ⟨rfl, ?_, rfl⟩
  decide

/-! ## FindSymbols and Callable parameter synthesis -/

/-- `dedupFirst` selects an order-preserving subsequence of the occurrence
list. -/
theorem dedupFirst_sublist (seen : List String) :
    (l : List Sym) → (dedupFirst seen l).Sublist l
  | [] => by simp [dedupFirst]
  | s :: rest => by
      simp only [dedupFirst]
      cases hc : List.contains seen s.name with
      | true => simpa [hc] using (dedupFirst_sublist seen rest).cons s
      | false => simpa [hc] using (dedupFirst_sublist (s.name :: seen) rest).cons₂ s

/-- The identities produced by `dedupFirst` are duplicate-free and disjoint
from the already-seen set. -/
theorem dedupFirst_nodup (seen : List String) :
    (l : List Sym) →
      ((dedupFirst seen l).map Sym.name).Nodup ∧
        ∀ x ∈ (dedupFirst seen l).map Sym.name, x ∉ seen
  | [] => by simp [dedupFirst]
  | s :: rest => by
      simp only [dedupFirst]
      cases hc : List.contains seen s.name with
      | true => simpa [hc] using dedupFirst_nodup seen rest
      | false =>
          have ih := dedupFirst_nodup (s.name :: seen) rest
          have hs : s.name ∉ seen := by simpa using hc
          simp only [hc, if_false, Bool.false_eq_true, List.map_cons, List.nodup_cons]
          refine ⟨⟨fun hmem => ?_, ih.1⟩, fun x hx => ?_⟩
          · exact (ih.2 s.name hmem) (List.mem_cons_self _ _)
          · rcases List.mem_cons.mp hx with h1 | h2
            · exact h1 ▸ hs
            · exact fun hxs => (ih.2 x h2) (List.mem_cons_of_mem _ hxs)

/-- `dedupFirst` computes, on identities, exactly the reference first-seen
deduplication. -/
theorem dedupFirst_names (seen : List String) :
    (l : List Sym) →
      (dedupFirst seen l).map Sym.name = firstOccurrences seen (l.map Sym.name)
  | [] => by simp [dedupFirst, firstOccurrences]
  | s :: rest => by
      cases hc : List.contains seen s.name with
      | true =>
          have hm : s.name ∈ seen := by simpa using hc
          simp [dedupFirst, firstOccurrences, hm, dedupFirst_names seen rest]
      | false =>
          have hm : s.name ∉ seen := by simpa using hc
          simp [dedupFirst, firstOccurrences, hm, dedupFirst_names (s.name :: seen) rest]

/-- C8: for every Callable constructed without an explicit parameter list,
the parameters are computed by `FindSymbols` over the body: the identity part
is a duplicate-free, first-seen-order, order-preserving selection from the
occurrence sequence (equal to the reference first-occurrence deduplication),
followed by one implicit trailing size parameter per array-typed symbol. -/
theorem callable_default_parameters :
    ∀ (n rt : String) (body : Node),
      (Callable.make n body rt none).parameters =
          (FindSymbols body).map Sym.name ++ sizeParams (FindSymbols body) ∧
        ((FindSymbols body).map Sym.name).Nodup ∧
        (FindSymbols body).Sublist (symbolsOf body) ∧
        (FindSymbols body).map Sym.name =
          firstOccurrences [] ((symbolsOf body).map Sym.name) := by
  intro n rt body
  exact ⟨rfl, (dedupFirst_nodup [] (symbolsOf body)).1,
    dedupFirst_sublist [] (symbolsOf body), dedupFirst_names [] (symbolsOf body)⟩

/-! ## Transformer: replacement accounting -/

/-- A single-replacement mapping never deletes a node. -/
theorem transform_ne_none (k : Nat) (r : Node) :
    ∀ t : Node, transform [(k, some r)] t ≠ none
  | .expr i l rr ss => by
      by_cases hik : k = i <;> simp [transform, lookupRep, hik]
  | .iter i d lo hi st aux b => by
      by_cases hik : k = i <;> simp [transform, lookupRep, hik]
  | .cond i g tb eb => by
      by_cases hik : k = i <;> simp [transform, lookupRep, hik]
  | .block i b => by
      by_cases hik : k = i <;> simp [transform, lookupRep, hik]
  | .line i ss => by
      by_cases hik : k = i <;> simp [transform, lookupRep, hik]

/-- A single-replacement mapping preserves emptiness of a child sequence. -/
theorem transformList_isEmpty (k : Nat) (r : Node) :
    ∀ l : List Node, (transformList [(k, some r)] l).isEmpty = l.isEmpty := by
  intro l
  cases l with
  | nil => rfl
  | cons n rest =>
      simp only [transformList]
      cases hn : transform [(k, some r)] n with
      | none => exact absurd hn (transform_ne_none k r n)
      | some n' => simp

mutual

/-- A subtree free of the mapped identity is returned unchanged. -/
theorem transform_zero (k : Nat) (r : Node) :
    (t : Node) → countId k t = 0 → transform [(k, some r)] t = some t
  | .expr i l rr ss, h => by
      have hik : ¬ k = i := by
        intro hk; subst hk; simp [countId] at h
      simp [transform, lookupRep, hik]
  | .iter i d lo hi st aux b, h => by
      have hik : ¬ k = i := by
        intro hk; subst hk; simp [countId] at h
      have hb : countIdList k b = 0 := by
        simp [countId] at h; omega
      simp [transform, lookupRep, hik, transformList_zero k r b hb]
  | .cond i g tb eb, h => by
      have hik : ¬ k = i := by
        intro hk; subst hk; simp [countId] at h
      have htb : countIdList k tb = 0 := by
        simp [countId] at h; omega
      have heb : countIdList k eb = 0 := by
        simp [countId] at h; omega
      simp [transform, lookupRep, hik, transformList_zero k r tb htb,
        transformList_zero k r eb heb]
  | .block i b, h => by
      have hik : ¬ k = i := by
        intro hk; subst hk; simp [countId] at h
      have hb : countIdList k b = 0 := by
        simp [countId] at h; omega
      simp [transform, lookupRep, hik, transformList_zero k r b hb]
  | .line i ss, h => by
      have hik : ¬ k = i := by
        intro hk; subst hk; simp [countId] at h
      simp [transform, lookupRep, hik]

/-- A forest free of the mapped identity is returned unchanged. -/
theorem transformList_zero (k : Nat) (r : Node) :
    (l : List Node) → countIdList k l = 0 → transformList [(k, some r)] l = l
  | [], _ => rfl
  | n :: rest, h => by
      have hn : countId k n = 0 := by
        simp [countIdList] at h; omega
      have hr : countIdList k rest = 0 := by
        simp [countIdList] at h; omega
      simp [transformList, transform_zero k r n hn, transformList_zero k r rest hr]

end

mutual

/-- A node occurring in a subtree contributes its identity to the count. -/
theorem mem_countId (e : Node) (k : Nat) (he : idOf e = k) :
    (t : Node) → e ∈ subnodes t → 1 ≤ countId k t
  | .expr i l rr ss, hmem => by
      simp only [subnodes, List.mem_singleton] at hmem
      subst hmem; simp [countId, ← he, idOf]
  | .iter i d lo hi st aux b, hmem => by
      simp only [subnodes] at hmem
      rcases List.mem_cons.mp hmem with h1 | h2
      · subst h1; simp [countId, ← he, idOf]
      · have := mem_countIdList e k he b h2
        simp [countId]; omega
  | .cond i g tb eb, hmem => by
      simp only [subnodes] at hmem
      rcases List.mem_cons.mp hmem with h1 | h2
      · subst h1; simp [countId, ← he, idOf]
      · rcases List.mem_append.mp h2 with h3 | h4
        · have := mem_countIdList e k he tb h3
          simp [countId]; omega
        · have := mem_countIdList e k he eb h4
          simp [countId]; omega
  | .block i b, hmem => by
      simp only [subnodes] at hmem
      rcases List.mem_cons.mp hmem with h1 | h2
      · subst h1; simp [countId, ← he, idOf]
      · have := mem_countIdList e k he b h2
        simp [countId]; omega
  | .line i ss, hmem => by
      simp only [subnodes, List.mem_singleton] at hmem
      subst hmem; simp [countId, ← he, idOf]

/-- Forest version of `mem_countId`. -/
theorem mem_countIdList (e : Node) (k : Nat) (he : idOf e = k) :
    (l : List Node) → e ∈ subnodesList l → 1 ≤ countIdList k l
  | [], hmem => by simp [subnodesList] at hmem
  | n :: rest, hmem => by
      simp only [subnodesList] at hmem
      rcases List.mem_append.mp hmem with h1 | h2
      · have := mem_countId e k he n h1
        simp [countIdList]; omega
      · have := mem_countIdList e k he rest h2
        simp [countIdList]; omega

end

/-! ## Rendered-line multisets -/

/-- Line multiset of a cons forest. -/
theorem lineMList_cons (n : Node) (rest : List Node) :
    lineMList (n :: rest) = lineM n + lineMList rest := rfl

/-- Line multiset of an Iteration. -/
theorem lineM_iter (i : Nat) (d : String) (lo hi st : Int) (aux : String) (b : List Node) :
    lineM (.iter i d lo hi st aux b) = iterHeader d lo hi st aux ::ₘ lineMList b := rfl

/-- Line multiset of a Conditional. -/
theorem lineM_cond (i : Nat) (g : String) (tb eb : List Node) :
    lineM (.cond i g tb eb) =
      ("<If " ++ g ++ ">") ::ₘ (lineMList tb + (elseTexts eb : Multiset String)) := rfl

/-- Line multiset of a Block. -/
theorem lineM_block (i : Nat) (b : List Node) : lineM (.block i b) = lineMList b := rfl

/-- Shuffling helper: an additive context on the left. -/
theorem msAdd1 {A B C D X : Multiset String} (h : A + B = C + D) :
    X + A + B = X + C + D := by
  rw [add_assoc, h, ← add_assoc]

/-- Shuffling helper: an additive context in the middle. -/
theorem msAdd2 {A B C D X : Multiset String} (h : A + B = C + D) :
    A + X + B = C + X + D := by
  rw [add_right_comm, h, add_right_comm]

mutual

/-- Every rendered line of a subtree node is a rendered line of the tree. -/
theorem subnodes_texts (e : Node) :
    (t : Node) → e ∈ subnodes t → ∀ x ∈ lineTexts e, x ∈ lineTexts t
  | .expr i l rr ss, hmem => by
      simp only [subnodes, List.mem_singleton] at hmem
      subst hmem; exact fun x hx => hx
  | .iter i d lo hi st aux b, hmem => by
      simp only [subnodes] at hmem
      rcases List.mem_cons.mp hmem with h1 | h2
      · subst h1; exact fun x hx => hx
      · intro x hx
        simp only [lineTexts]
        exact List.mem_cons_of_mem _ (subnodesList_texts e b h2 x hx)
  | .cond i g tb eb, hmem => by
      simp only [subnodes] at hmem
      rcases List.mem_cons.mp hmem with h1 | h2
      · subst h1; exact fun x hx => hx
      · rcases List.mem_append.mp h2 with h3 | h4
        · intro x hx
          simp only [lineTexts]
          exact List.mem_cons_of_mem _
            (List.mem_append_left _ (subnodesList_texts e tb h3 x hx))
        · intro x hx
          have hne : eb.isEmpty = false := by
            cases eb with
            | nil => simp [subnodesList] at h4
            | cons hh tt => rfl
          simp only [lineTexts, hne, Bool.false_eq_true, if_false]
          exact List.mem_cons_of_mem _
            (List.mem_append_right _
              (List.mem_cons_of_mem _ (subnodesList_texts e eb h4 x hx)))
  | .block i b, hmem => by
      simp only [subnodes] at hmem
      rcases List.mem_cons.mp hmem with h1 | h2
      · subst h1; exact fun x hx => hx
      · intro x hx
        simpa [lineTexts] using subnodesList_texts e b h2 x hx
  | .line i ss, hmem => by
      simp only [subnodes, List.mem_singleton] at hmem
      subst hmem; exact fun x hx => hx

/-- Forest version of `subnodes_texts`. -/
theorem subnodesList_texts (e : Node) :
    (l : List Node) → e ∈ subnodesList l → ∀ x ∈ lineTexts e, x ∈ lineTextsList l
  | [], hmem => by simp [subnodesList] at hmem
  | n :: rest, hmem => by
      simp only [subnodesList] at hmem
      rcases List.mem_append.mp hmem with h1 | h2
      · intro x hx
        simp only [lineTextsList]
        exact List.mem_append_left _ (subnodes_texts e n h1 x hx)
      · intro x hx
        simp only [lineTextsList]
        exact List.mem_append_right _ (subnodesList_texts e rest h2 x hx)

end

mutual

/-- The replacement accounting law: replacing the unique node of identity `k`
(a node `e` actually occurring in the tree) by `r` succeeds, and the rendered
line multiset of the result plus the lines of `e` equals the lines of the
original tree plus the lines of `r` — replaced subtrees are wholly replaced,
everything else is preserved. -/
theorem transform_lineM (k : Nat) (r e : Node) (he : idOf e = k) :
    (t : Node) → e ∈ subnodes t → countId k t = 1 →
      ∃ t', transform [(k, some r)] t = some t' ∧
        lineM t' + lineM e = lineM t + lineM r
  | .expr i l rr ss, hmem, _ => by
      simp only [subnodes, List.mem_singleton] at hmem
      have hik : k = i := by subst hmem; simpa [idOf] using he.symm
      subst hmem
      exact ⟨r, by simp [transform, lookupRep, hik], add_comm _ _⟩
  | .iter i d lo hi st aux b, hmem, hcnt => by
      simp only [subnodes] at hmem
      rcases List.mem_cons.mp hmem with h1 | h2
      · have hik : k = i := by subst h1; simpa [idOf] using he.symm
        subst h1
        exact ⟨r, by simp [transform, lookupRep, hik], add_comm _ _⟩
      · have hge := mem_countIdList e k he b h2
        have hik : ¬ k = i := by
          intro hk
          subst hk
          simp [countId] at hcnt
          omega
        have hii : ¬ i = k := fun hh => hik hh.symm
        have hb : countIdList k b = 1 := by
          simp [countId, hii] at hcnt
          exact hcnt
        have hM := transformList_lineM k r e he b h2 hb
        refine ⟨.iter i d lo hi st aux (transformList [(k, some r)] b),
          by simp [transform, lookupRep, hik], ?_⟩
        rw [lineM_iter, lineM_iter, Multiset.cons_add, Multiset.cons_add, hM]
  | .cond i g tb eb, hmem, hcnt => by
      simp only [subnodes] at hmem
      rcases List.mem_cons.mp hmem with h1 | h2
      · have hik : k = i := by subst h1; simpa [idOf] using he.symm
        subst h1
        exact ⟨r, by simp [transform, lookupRep, hik], add_comm _ _⟩
      · have hik : ¬ k = i := by
          intro hk
          rcases List.mem_append.mp h2 with h3 | h4
          · have := mem_countIdList e k he tb h3
            subst hk; simp [countId] at hcnt; omega
          · have := mem_countIdList e k he eb h4
            subst hk; simp [countId] at hcnt; omega
        have hii : ¬ i = k := fun hh => hik hh.symm
        have hsum : countIdList k tb + countIdList k eb = 1 := by
          simp [countId, hii] at hcnt
          exact hcnt
        rcases List.mem_append.mp h2 with h3 | h4
        · have htb : countIdList k tb = 1 := by
            have := mem_countIdList e k he tb h3
            omega
          have heb0 : countIdList k eb = 0 := by omega
          have hM := transformList_lineM k r e he tb h3 htb
          refine ⟨.cond i g (transformList [(k, some r)] tb) eb,
            ?_, ?_⟩
          · simp [transform, lookupRep, hik, transformList_zero k r eb heb0]
          · rw [lineM_cond, lineM_cond, Multiset.cons_add, Multiset.cons_add]
            exact congrArg _ (msAdd2 hM)
        · have heb : countIdList k eb = 1 := by
            have := mem_countIdList e k he eb h4
            omega
          have htb0 : countIdList k tb = 0 := by omega
          have hM := transformList_lineM k r e he eb h4 heb
          have hne : eb.isEmpty = false := by
            cases eb with
            | nil => simp [subnodesList] at h4
            | cons hh tt => rfl
          have hne2 : (transformList [(k, some r)] eb).isEmpty = false := by
            rw [transformList_isEmpty]; exact hne
          refine ⟨.cond i g tb (transformList [(k, some r)] eb), ?_, ?_⟩
          · simp [transform, lookupRep, hik, transformList_zero k r tb htb0]
          · rw [lineM_cond, lineM_cond, Multiset.cons_add, Multiset.cons_add]
            refine congrArg _ ?_
            have hE1 : (elseTexts (transformList [(k, some r)] eb) : Multiset String) =
                ("<Else>" : String) ::ₘ lineMList (transformList [(k, some r)] eb) := by
              simp [elseTexts, hne2, lineMList]
            have hE2 : (elseTexts eb : Multiset String) =
                ("<Else>" : String) ::ₘ lineMList eb := by
              simp [elseTexts, hne, lineMList]
            rw [hE1, hE2, ← Multiset.singleton_add, ← Multiset.singleton_add,
              ← add_assoc, ← add_assoc]
            exact msAdd1 hM
  | .block i b, hmem, hcnt => by
      simp only [subnodes] at hmem
      rcases List.mem_cons.mp hmem with h1 | h2
      · have hik : k = i := by subst h1; simpa [idOf] using he.symm
        subst h1
        exact ⟨r, by simp [transform, lookupRep, hik], add_comm _ _⟩
      · have hge := mem_countIdList e k he b h2
        have hik : ¬ k = i := by
          intro hk
          subst hk
          simp [countId] at hcnt
          omega
        have hii : ¬ i = k := fun hh => hik hh.symm
        have hb : countIdList k b = 1 := by
          simp [countId, hii] at hcnt
          exact hcnt
        have hM := transformList_lineM k r e he b h2 hb
        refine ⟨.block i (transformList [(k, some r)] b),
          by simp [transform, lookupRep, hik], ?_⟩
        rw [lineM_block, lineM_block]
        exact hM
  | .line i ss, hmem, _ => by
      simp only [subnodes, List.mem_singleton] at hmem
      have hik : k = i := by subst hmem; simpa [idOf] using he.symm
      subst hmem
      exact ⟨r, by simp [transform, lookupRep, hik], add_comm _ _⟩

/-- Forest version of `transform_lineM`. -/
theorem transformList_lineM (k : Nat) (r e : Node) (he : idOf e = k) :
    (l : List Node) → e ∈ subnodesList l → countIdList k l = 1 →
      lineMList (transformList [(k, some r)] l) + lineM e = lineMList l + lineM r
  | [], hmem, _ => by simp [subnodesList] at hmem
  | n :: rest, hmem, hcnt => by
      simp only [subnodesList] at hmem
      rcases List.mem_append.mp hmem with h1 | h2
      · have hge := mem_countId e k he n h1
        have hn : countId k n = 1 := by
          simp [countIdList] at hcnt
          omega
        have hrest : countIdList k rest = 0 := by
          simp [countIdList] at hcnt
          omega
        obtain ⟨n', hn', hM⟩ := transform_lineM k r e he n h1 hn
        have hstep : transformList [(k, some r)] (n :: rest) = n' :: rest := by
          simp [transformList, hn', transformList_zero k r rest hrest]
        rw [hstep, lineMList_cons, lineMList_cons]
        exact msAdd2 hM
      · have hge := mem_countIdList e k he rest h2
        have hrest : countIdList k rest = 1 := by
          simp [countIdList] at hcnt
          omega
        have hn : countId k n = 0 := by
          simp [countIdList] at hcnt
          omega
        have hM := transformList_lineM k r e he rest h2 hrest
        have hstep : transformList [(k, some r)] (n :: rest) =
            n :: transformList [(k, some r)] rest := by
          simp [transformList, transform_zero k r n hn]
        rw [hstep, lineMList_cons, lineMList_cons]
        exact msAdd1 hM

end

/-- C6: wrapping one Expression between two added decoration lines — a
mapping that replaces the Expression by a block holding an opening line, the
same Expression, and a closing line — yields a tree whose rendered line count
exceeds the original's by exactly the two added lines, and the original
statement's rendered text is preserved verbatim in the output (hypotheses:
the Expression node occurs in the tree and its identity occurs exactly once,
the spec's tree-shape invariant). -/
theorem transformer_wrap (t : Node) (i : Nat) (lhs rhs : String) (syms : List Sym)
    (b1 i1 i2 : Nat) (l1 l2 : String)
    (hmem : Node.expr i lhs rhs syms ∈ subnodes t)
    (hone : countId i t = 1) :
    ∃ t',
      Transformer
          [(i, some (Node.block b1
            [Node.line i1 l1, Node.expr i lhs rhs syms, Node.line i2 l2]))] t = some t' ∧
        lineCount t' = lineCount t + 2 ∧
        exprLine lhs rhs ∈ lineTexts t' := by
  obtain ⟨t', ht', hM⟩ := transform_lineM i
    (Node.block b1 [Node.line i1 l1, Node.expr i lhs rhs syms, Node.line i2 l2])
    (Node.expr i lhs rhs syms) rfl t hmem hone
  have hcard := congrArg Multiset.card hM
  simp only [Multiset.card_add, lineM, Multiset.coe_card] at hcard
  have hcnt := congrArg (Multiset.count (exprLine lhs rhs)) hM
  simp only [Multiset.count_add, lineM, Multiset.coe_count] at hcnt
  have hlenE : (lineTexts (Node.expr i lhs rhs syms)).length = 1 := rfl
  have hlenR : (lineTexts (Node.block b1
      [Node.line i1 l1, Node.expr i lhs rhs syms, Node.line i2 l2])).length = 3 := rfl
  have hcE : (lineTexts (Node.expr i lhs rhs syms)).count (exprLine lhs rhs) = 1 := by
    simp [lineTexts]
  have hcR : 1 ≤ (lineTexts (Node.block b1
      [Node.line i1 l1, Node.expr i lhs rhs syms, Node.line i2 l2])).count
        (exprLine lhs rhs) := by
    refine List.count_pos_iff.mpr ?_
    simp [lineTexts, lineTextsList]
  have hcT : 1 ≤ (lineTexts t).count (exprLine lhs rhs) := by
    refine List.count_pos_iff.mpr ?_
    exact subnodes_texts _ t hmem _ (by simp [lineTexts])
  refine ⟨t', ht', ?_, ?_⟩
  · unfold lineCount
    omega
  · exact List.count_pos_iff.mp (by omega)

/-- Witness for `transformer_wrap`: wrapping `expr0` inside `block2` in the
two comment lines of `test_transformer_wrap`. -/
theorem transformer_wrap_witness :
    countId 0 block2 = 1 ∧
      ∃ t',
        Transformer
            [(0, some (Node.block 30
              [Node.line 31 "// This is the opening comment",
                Node.expr 0 "a[i]" "a[i] + b[i] + 5.0" [⟨"a", true⟩, ⟨"b", true⟩],
                Node.line 32 "// This is the closing comment"]))] block2 = some t' ∧
          lineCount t' = lineCount block2 + 2 ∧
          exprLine "a[i]" "a[i] + b[i] + 5.0" ∈ lineTexts t' :=
  ⟨by decide,
    transformer_wrap block2 0 "a[i]" "a[i] + b[i] + 5.0" [⟨"a", true⟩, ⟨"b", true⟩]
      30 31 32 "// This is the opening comment" "// This is the closing comment"
      (by simp [block2, iterI, iterJ, iterK, expr0, expr1, subnodes, subnodesList])
      (by decide)⟩

/-- C7 counterexample: replacing the first of two same-text Expressions by a
marker block leaves the statement's rendered text in the output — the
identity of the replaced node occurs exactly once, yet the text survives at
the sibling node, refuting "the original statement's rendered text no longer
appears anywhere in the output". -/
theorem transformer_replace_counterexample :
    countId 91 dupTree = 1 ∧
      Node.expr 91 "x" "y" [] ∈ subnodes dupTree ∧
      Transformer [(91, some (Node.block 93 [Node.line 94 "// marker"]))] dupTree =
        some (Node.block 90
          [Node.block 93 [Node.line 94 "// marker"], Node.expr 92 "x" "y" []]) ∧
      exprLine "x" "y" ∈
        lineTexts (Node.block 90
          [Node.block 93 [Node.line 94 "// marker"], Node.expr 92 "x" "y" []]) :=
  ⟨by decide, by simp [dupTree, subnodes, subnodesList], rfl, by decide⟩

/-- C7 (amended): replacing one Expression with a marker block yields a tree
whose rendered line count is the original's plus the marker's single line
minus the replaced statement's single line (in particular at least that), and
the marker text appears in the output; provided additionally that the
statement's rendered text occupies exactly one line of the original tree and
differs from the marker, the statement's text no longer appears anywhere. -/
theorem transformer_replace (t : Node) (i : Nat) (lhs rhs : String) (syms : List Sym)
    (b1 i1 : Nat) (marker : String)
    (hmem : Node.expr i lhs rhs syms ∈ subnodes t)
    (hone : countId i t = 1)
    (htext : (lineTexts t).count (exprLine lhs rhs) = 1)
    (hm : marker ≠ exprLine lhs rhs) :
    ∃ t',
      Transformer [(i, some (Node.block b1 [Node.line i1 marker]))] t = some t' ∧
        lineCount t' = lineCount t ∧
        marker ∈ lineTexts t' ∧
        exprLine lhs rhs ∉ lineTexts t' := by
  obtain ⟨t', ht', hM⟩ := transform_lineM i (Node.block b1 [Node.line i1 marker])
    (Node.expr i lhs rhs syms) rfl t hmem hone
  have hcard := congrArg Multiset.card hM
  simp only [Multiset.card_add, lineM, Multiset.coe_card] at hcard
  have hcntE := congrArg (Multiset.count (exprLine lhs rhs)) hM
  simp only [Multiset.count_add, lineM, Multiset.coe_count] at hcntE
  have hcntM := congrArg (Multiset.count marker) hM
  simp only [Multiset.count_add, lineM, Multiset.coe_count] at hcntM
  have hlenE : (lineTexts (Node.expr i lhs rhs syms)).length = 1 := rfl
  have hlenR : (lineTexts (Node.block b1 [Node.line i1 marker])).length = 1 := rfl
  have hE1 : (lineTexts (Node.expr i lhs rhs syms)).count (exprLine lhs rhs) = 1 := by
    simp [lineTexts]
  have hEm : (lineTexts (Node.expr i lhs rhs syms)).count marker = 0 := by
    simp [lineTexts, List.count_cons, hm.symm]
  have hR0 : (lineTexts (Node.block b1 [Node.line i1 marker])).count
      (exprLine lhs rhs) = 0 := by
    simp [lineTexts, lineTextsList, List.count_cons, hm]
  have hRm : (lineTexts (Node.block b1 [Node.line i1 marker])).count marker = 1 := by
    simp [lineTexts, lineTextsList]
  refine ⟨t', ht', ?_, ?_, ?_⟩
  · unfold lineCount
    omega
  · exact List.count_pos_iff.mp (by omega)
  · intro hmm
    have := List.count_pos_iff.mpr hmm
    omega

/-- Witness for `transformer_replace`: replacing `expr0` inside `block2` by
the marker of `test_transformer_replace`. -/
theorem transformer_replace_witness :
    (lineTexts block2).count (exprLine "a[i]" "a[i] + b[i] + 5.0") = 1 ∧
      ∃ t',
        Transformer [(0, some (Node.block 40 [Node.line 41 "// Replaced expression"]))]
            block2 = some t' ∧
          lineCount t' = lineCount block2 ∧
          "// Replaced expression" ∈ lineTexts t' ∧
          exprLine "a[i]" "a[i] + b[i] + 5.0" ∉ lineTexts t' :=
  ⟨by decide,
    transformer_replace block2 0 "a[i]" "a[i] + b[i] + 5.0" [⟨"a", true⟩, ⟨"b", true⟩]
      40 41 "// Replaced expression"
      (by simp [block2, iterI, iterJ, iterK, expr0, expr1, subnodes, subnodesList])
      (by decide) (by decide) (by decide)⟩

end IET

namespace FD

/-- C9: `Side.adjoint` returns the side itself for a direct matvec (for
every stored side value); under the transpose matvec it maps centered to
centered, right to left and left to right; and for a side value outside
these three it surfaces the error path immediately — no side is ever
silently produced (`none`, modelling the source's error log and fall-through
without a result). -/
theorem side_adjoint_spec :
    (∀ s : Side, Side.adjoint s direct = some s) ∧
      Side.adjoint centered transpose = some centered ∧
      Side.adjoint right transpose = some left ∧
      Side.adjoint left transpose = some right ∧
      (∀ x : Int, x ≠ 0 → x ≠ 1 → x ≠ -1 → Side.adjoint ⟨x⟩ transpose = none) := by
  refine ⟨fun s => rfl, rfl, rfl, rfl, fun x h0 h1 hm1 => ?_⟩
  simp [Side.adjoint, transposeEqb, sideEqb, direct, transpose, centered, left, right,
    h0, h1, hm1]

/-- Witness for `side_adjoint_spec` at the concrete unsupported side value
`Side(5)`. -/
theorem side_adjoint_spec_witness : Side.adjoint ⟨5⟩ transpose = none :=
  side_adjoint_spec.2.2.2.2 5 (by decide) (by decide) (by decide)

/-- C10: equality on `Side` and `Transpose` is determined solely by the
stored numeric tag — `Side x = Side y` iff `x = y` and likewise for
`Transpose` — a separately constructed `Side (-1)` compares equal to the
module-level `left`, and tag equality drives the side dispatch of
`first_derivative`'s stencil-offset selection and `staggered_diff`'s
staggering offset: tag-equal sides dispatch identically. -/
theorem tag_equality_drives_dispatch :
    (∀ x y : Int, (sideEqb ⟨x⟩ ⟨y⟩ = true) ↔ x = y) ∧
      (∀ x y : Int, (transposeEqb ⟨x⟩ ⟨y⟩ = true) ↔ x = y) ∧
      sideEqb ⟨-1⟩ left = true ∧
      (∀ s1 s2 : Side, sideEqb s1 s2 = true →
        (∀ o : Nat, firstDerivOffsets o s1 = firstDerivOffsets o s2) ∧
          staggerOff s1 = staggerOff s2) := by
  refine ⟨fun x y => by simp [sideEqb], fun x y => by simp [transposeEqb], rfl,
    fun s1 s2 h => ?_⟩
  have hv : s1.sideVal = s2.sideVal := by simpa [sideEqb] using h
  have hs : s1 = s2 := by cases s1; cases s2; simpa using hv
  subst hs
  exact ⟨fun o => rfl, rfl⟩

/-- Witness for `tag_equality_drives_dispatch`: the separately constructed
`Side (-1)` dispatches exactly like `left`. -/
theorem tag_equality_drives_dispatch_witness :
    firstDerivOffsets 2 ⟨-1⟩ = firstDerivOffsets 2 left ∧
      staggerOff ⟨-1⟩ = staggerOff left :=
  ⟨(tag_equality_drives_dispatch.2.2.2 ⟨-1⟩ left (by decide)).1 2,
    (tag_equality_drives_dispatch.2.2.2 ⟨-1⟩ left (by decide)).2⟩

end FD
